import Mathlib

/-!
Verification of the dominant-return-period pipeline of the
Drought-Dominant-Periods repository (code/main.py), over a shallow
embedding in Lean 4.

The numeric decision logic of the pipeline (time correlation, harmonic
index ranking, GCD-based harmonic grouping, prefix scan, monotonicity
truncation, the lag-1 autocorrelation coefficient, the adjusted R-squared
gate and the final rounding) is exact rational arithmetic and is embedded
over `ℚ`, translated line by line from the source.  The transcendental
ingredients (the values of `np.fft.rfft` / `np.fft.irfft` and the
chi-squared quantile) are taken as explicit parameters of the embedded
functions: `cAbs` stands for the magnitude list `np.abs(np.fft.rfft corr)`,
`signif k` stands for the boolean outcome of
`calc_chi2_significance corr V_n k`, and `irfft tmp` stands for
`np.fft.irfft` of the sparse coefficient array populated at the index
set `tmp`.  Every combinatorial decision of the source is a function of
these data alone, so the theorems below quantify over them.

`np.argsort` (array path) and the full-range `np.argpartition`
(scalar path) are modelled as the stable ascending argsort, i.e. indices
sorted by the key (value, index); numpy's default sort kind leaves the
order of ties unspecified, and the stable kind realises exactly this key.

The four rational-arithmetic primitives are unsealed so that concrete
instances of the pipeline evaluate definitionally (they are
`@[irreducible]` only as an elaboration-performance guard).
-/

unseal Rat.mul Rat.inv Rat.add Rat.sub

/-- Time window length `NT` from `code/settings.py`. -/
def NT : ℕ := 25

/-- Correlation tolerance `EPS_CORR` from `code/settings.py`. -/
def EPS_CORR : ℚ := 1/10000

/-- Acceptance threshold `R2_THRESHOLD` from `code/settings.py`. -/
def R2_THRESHOLD : ℚ := 1/2

/-- The fixed near-zero tolerance `1e-10` used by the constant-signal check
in `_determine_dominant_return_period` (main.py line 206). -/
def CONST_TOL : ℚ := 1/10000000000

/-- Dot product of two rational lists, `u.dot(w)` on equal-length arrays. -/
def dot (u w : List ℚ) : ℚ := (List.zipWith (· * ·) u w).sum

/-- Arithmetic mean, `np.mean`. -/
def mean (l : List ℚ) : ℚ := l.sum / l.length

/-- Population variance, `np.var` (ddof = 0). -/
def npVar (l : List ℚ) : ℚ := mean (l.map (fun x => (x - mean l) ^ 2))

/-- Absolute value, `np.abs`, written with an explicit comparison so that
it evaluates definitionally (`ratAbs_eq_abs` identifies it with `|·|`). -/
def ratAbs (x : ℚ) : ℚ := if x < 0 then -x else x

/-- Embedding of `_calc_time_corr` (main.py lines 46-66), with the window
half-length `N` standing for the global `NT`.  `a` and `b` are the two
indicator series; the function reads the first `N` samples of `a` and the
first `2N` samples of `b`, short-circuits to the all-zero sequence when
either slice is uniformly zero (`list(set(f)) == [0.0]`, which also
requires the slice to be non-empty), and otherwise returns the list of
windowed dot products divided by `N`. -/
def calcTimeCorr (N : ℕ) (a b : List ℚ) : List ℚ :=
  let fi := a.take N
  if fi ≠ [] ∧ ∀ x ∈ fi, x = 0 then List.replicate N 0
  else
    let fj := b.take (2 * N)
    if fj ≠ [] ∧ ∀ x ∈ fj, x = 0 then List.replicate N 0
    else (List.range N).map (fun k => dot fi ((fj.drop k).take N) / N)

/-- The comparison key of the stable ascending argsort of `v`:
index `i` precedes index `j` when `v[i] < v[j]`, or when the values tie
and `i ≤ j`. -/
def argsortRel (v : List ℚ) (i j : ℕ) : Prop :=
  v.getD i 0 < v.getD j 0 ∨ (v.getD i 0 = v.getD j 0 ∧ i ≤ j)

instance argsortRelDecidable (v : List ℚ) : DecidableRel (argsortRel v) :=
  fun _ _ => inferInstanceAs (Decidable (_ ∨ _ ∧ _))

instance argsortRelTotal (v : List ℚ) : IsTotal ℕ (argsortRel v) := by
  constructor
  intro i j
  unfold argsortRel
  rcases lt_trichotomy (v.getD i 0) (v.getD j 0) with h | h | h
  · exact Or.inl (Or.inl h)
  · rcases Nat.le_total i j with hij | hij
    · exact Or.inl (Or.inr ⟨h, hij⟩)
    · exact Or.inr (Or.inr ⟨h.symm, hij⟩)
  · exact Or.inr (Or.inl h)

instance argsortRelTrans (v : List ℚ) : IsTrans ℕ (argsortRel v) := by
  constructor
  intro a b c hab hbc
  unfold argsortRel at hab hbc ⊢
  rcases hab with h1 | ⟨h1, h1a⟩ <;> rcases hbc with h2 | ⟨h2, h2a⟩
  · exact Or.inl (h1.trans h2)
  · exact Or.inl (h2 ▸ h1)
  · exact Or.inl (h1 ▸ h2)
  · exact Or.inr ⟨h1.trans h2, h1a.trans h2a⟩

/-- Stable ascending argsort of a value list, the model of
`np.argsort(v)` (see the file header note on tie order); the key
`argsortRel v` is total and antisymmetric, so every correct stable sort
yields this unique output, and `List.insertionSort` is structurally
recursive and evaluates in the kernel. -/
def argsortAsc (v : List ℚ) : List ℕ :=
  List.insertionSort (argsortRel v) (List.range v.length)

/-- Embedding of the harmonic index ranking
`np.flip(np.argpartition(np.abs(c_n), range(-len(c_n), 0)))`
(main.py line 201) and `np.flip(np.argsort(np.abs(c_n), axis=0), axis=0)`
(line 286): the reverse of the ascending argsort of the coefficient
magnitudes. -/
def sortedIdx (v : List ℚ) : List ℕ := (argsortAsc v).reverse

/-- The non-zero entries of an index list, `arr[arr != 0]`. -/
def nonzeros (l : List ℕ) : List ℕ := l.filter (· ≠ 0)

/-- Embedding of the fundamental candidate computation
(main.py lines 210-217): the gcd of the two highest-ranked non-zero
indices, replaced by the first of them when the gcd degenerates to 1 and
that index exceeds 1, and by the second otherwise. -/
def fundamentalOf (si : List ℕ) : ℕ :=
  let nz := nonzeros si
  let i0 := nz.getD 0 0
  let i1 := nz.getD 1 0
  let g := Nat.gcd i0 i1
  if g = 1 ∧ 1 < i0 then i0
  else if g = 1 then i1
  else g

/-- Embedding of the gridded fundamental correction
(main.py lines 292-306): the same gcd followed by the two masked
assignments, the second of which reads the gcd entries already rewritten
by the first. -/
def fundamentalOfArray (si : List ℕ) : ℕ :=
  let nz := nonzeros si
  let i0 := nz.getD 0 0
  let i1 := nz.getD 1 0
  let g0 := Nat.gcd i0 i1
  let g1 := if g0 = 1 ∧ 1 < i0 then i0 else g0
  if g1 = 1 ∧ i0 ≤ 1 then i1 else g1

/-- The acceptance condition of the harmonic prefix scan
(main.py lines 220-229): index 0 is always accepted, any other index is
accepted when it is a multiple of the fundamental or the fundamental is a
multiple of it. -/
def acceptHarm (g idx : ℕ) : Bool :=
  decide (idx = 0) || decide (idx % g = 0) || decide (g % idx = 0)

/-- Embedding of the scalar prefix scan (main.py lines 219-229): the
`for`/`break` loop keeps the longest prefix of the ranking all of whose
members satisfy `acceptHarm`. -/
def harmonicPrefix (g : ℕ) (si : List ℕ) : List ℕ := si.takeWhile (acceptHarm g)

/-- Embedding of the gridded prefix selection (main.py lines 309-328):
`np.argmax(np.invert(mask))` yields the position of the first index
failing the acceptance condition, and 0 when no index fails; the cell
keeps `sorted_idx[:pos]`. -/
def firstFailPos (g : ℕ) (si : List ℕ) : ℕ :=
  match si.findIdx? (fun idx => !acceptHarm g idx) with
  | some k => k
  | none => 0

/-- The gridded per-cell prefix, `sorted_idx[:firstFailPos]`. -/
def arrayPrefixSel (g : ℕ) (si : List ℕ) : List ℕ := si.take (firstFailPos g si)

/-- Executable check that a list is non-decreasing.  The Python loop
condition `any(arr != sorted(arr))` (main.py lines 232 and 333) holds
exactly when this is false, since a list equals its own sorted
rearrangement exactly when it is already non-decreasing
(`isNonDecreasing_iff` relates it to `List.Chain'`). -/
def isNonDecreasing : List ℕ → Bool
  | [] => true
  | [_] => true
  | a :: b :: t => decide (a ≤ b) && isNonDecreasing (b :: t)

/-- Worker for the monotonicity truncation, structurally recursive on an
explicit fuel argument (the list length bounds the number of drops) so
that it evaluates in the kernel.  On the empty list the loop condition
holds vacuously and the list is returned. -/
def keepIncreasingAux : ℕ → List ℕ → List ℕ
  | _, [] => []
  | 0, a :: t => a :: t
  | fuel + 1, a :: t =>
    if isNonDecreasing (nonzeros (a :: t)) then a :: t
    else keepIncreasingAux fuel (a :: t).dropLast

/-- Embedding of the monotonicity truncation (main.py lines 230-233 and
331-335): drop the last element while the non-zero members, in encounter
order, differ from their sorted rearrangement, i.e. while they are not
non-decreasing (`keepIncreasing_eq` is the loop unfolding). -/
def keepIncreasing (l : List ℕ) : List ℕ := keepIncreasingAux l.length l

/-- The surviving harmonic set of the scalar path: the monotonicity
truncation of the accepted prefix of the ranking of `cAbs` (main.py
lines 196-233 given the magnitudes `cAbs` of the Fourier coefficients). -/
def survivors (cAbs : List ℚ) : List ℕ :=
  keepIncreasing (harmonicPrefix (fundamentalOf (sortedIdx cAbs)) (sortedIdx cAbs))

/-- The candidate fundamental index actually used by the scalar path:
`tmp_non_zero[0]`, the first non-zero member of the surviving harmonic
set (main.py lines 239-241). -/
def candidate (cAbs : List ℚ) : ℕ := (nonzeros (survivors cAbs)).getD 0 0

/-- The spectral bin at which the scalar path evaluates the chi-squared
test: `calc_chi2_significance(corr, V_n, tmp_non_zero[0])`
(main.py line 241). -/
def scalarChiBin (tmpNZ : List ℕ) : ℕ := tmpNZ.getD 0 0

/-- The spectral bin whose red-noise and power values the gridded path
ends up comparing: the loop of main.py lines 169-173 overwrites the
per-cell slot once per member of `tmp_non_zero`, so the last member wins
(and the slot keeps its zero initialisation when the set is empty). -/
def arrayChiBin (tmpNZ : List ℕ) : ℕ := tmpNZ.foldl (fun _ v => v) 0

/-- The time-index vector `np.arange N`, cast to rationals. -/
def arangeQ (N : ℕ) : List ℚ := List.map (fun i : ℕ => (i : ℚ)) (List.range N)

/-- Degree-1 least squares fit `np.polyfit(np.arange N, y, 1)` over the
time indices `0, …, N-1`, returned as (slope, intercept) in closed form. -/
def olsFit (N : ℕ) (y : List ℚ) : ℚ × ℚ :=
  let t : List ℚ := arangeQ N
  let sy := y.sum
  let st := t.sum
  let sty := (List.zipWith (· * ·) t y).sum
  let stt := (t.map (· ^ 2)).sum
  let slope := ((N : ℚ) * sty - st * sy) / ((N : ℚ) * stt - st ^ 2)
  (slope, (sy - slope * st) / N)

/-- The linearly detrended and then demeaned series built by
`calc_chi2_significance` (main.py lines 101-103): subtract the fitted
line at each time index, then subtract the mean of the result. -/
def demeanDetrend (N : ℕ) (data : List ℚ) : List ℚ :=
  let fit := olsFit N data
  let detr := List.zipWith (fun y t => y - (fit.1 * t + fit.2)) data (arangeQ N)
  detr.map (fun v => v - mean detr)

/-- Embedding of the lag-1 autocorrelation coefficient of
`calc_chi2_significance` (main.py lines 101-104):
`phi[:NT-1].dot(phi[1:NT]) / ((NT-1) * np.var(data[:-1]))` where `phi` is
the demeaned detrended series and `data` is the original argument. -/
def phiOf (N : ℕ) (data : List ℚ) : ℚ :=
  let x := demeanDetrend N data
  dot (x.take (N - 1)) ((x.drop 1).take (N - 1)) /
    (((N : ℚ) - 1) * npVar data.dropLast)

/-- Modelled from the spec: the claimed lag-1 autocorrelation formula of
section 4.4 step 2, `φ = Σ(x[t]·x[t+1]) / ((N−1)·Var(x[:-1]))` with the
variance taken over the demeaned detrended series `x` itself (claim C4),
for comparison with `phiOf`. -/
def phiClaim (N : ℕ) (data : List ℚ) : ℚ :=
  let x := demeanDetrend N data
  dot (x.take (N - 1)) ((x.drop 1).take (N - 1)) /
    (((N : ℚ) - 1) * npVar x.dropLast)

/-- Embedding of `sklearn.metrics.r2_score`: `1 - SSres/SStot` with the
sklearn degenerate conventions, 1.0 when the residual sum vanishes and
0.0 when only the total sum vanishes. -/
def r2Score (yTrue yPred : List ℚ) : ℚ :=
  let num := (List.zipWith (fun a b => (a - b) ^ 2) yTrue yPred).sum
  let den := (yTrue.map (fun a => (a - mean yTrue) ^ 2)).sum
  if den ≠ 0 then 1 - num / den
  else if num ≠ 0 then 0 else 1

/-- Round-half-to-even of a rational to an integer, the exact-arithmetic
counterpart of `np.rint`. -/
def roundHalfEven (q : ℚ) : ℤ :=
  let f := ⌊q⌋
  if q - f < 1/2 then f
  else if q - f > 1/2 then f + 1
  else if f % 2 = 0 then f else f + 1

/-- Rounding to 2 decimal places, `np.round(q, decimals=2)` in exact
arithmetic. -/
def round2 (q : ℚ) : ℚ := (roundHalfEven (q * 100) : ℚ) / 100

/-- The tuple returned by `_determine_dominant_return_period`: the
(adjusted) R-squared of the fit, the fit itself, the optional dominant
return period, and the index ranking.  The source additionally returns
the raw coefficients `c_n`, which the embedding carries as the magnitude
parameter `cAbs`. -/
structure DRPResult where
  r2 : ℚ
  fit : List ℚ
  period : Option ℚ
  ranking : List ℕ
deriving DecidableEq, Repr

/-- Embedding of the scalar `_determine_dominant_return_period`
(main.py lines 183-266), with the window length `N` standing for the
global `NT`, the tolerances as parameters, and the transcendental
ingredients abstracted as described in the file header: `cAbs` is
`np.abs(np.fft.rfft corr)`, `signif k` is the outcome of
`calc_chi2_significance corr V_n k`, and `irfft s` is
`np.fft.irfft` of the coefficient array zeroed outside the index set `s`.
Branches, in source order: the below-tolerance early exit (line 203), the
constant-signal early exit (line 206), the fundamental-missing exit
(line 235), the failed significance exit (line 242), and the adjusted
R-squared gate (lines 251-266). -/
def determineDominantReturnPeriod (N : ℕ) (epsCorr r2Threshold : ℚ)
    (corr : List ℚ) (cAbs : List ℚ) (signif : ℕ → Bool)
    (irfft : List ℕ → List ℚ) : DRPResult :=
  let si := sortedIdx cAbs
  if ∀ x ∈ corr, ratAbs x < epsCorr then
    ⟨1, corr, none, si⟩
  else if (cAbs.drop 1).sum < CONST_TOL then
    ⟨1, corr, some 1, si⟩
  else
    let g := fundamentalOf si
    let tmp := survivors cAbs
    if g ∉ tmp then ⟨0, List.replicate N 0, none, si⟩
    else
      let f := candidate cAbs
      if ¬ signif f then ⟨0, List.replicate N 0, none, si⟩
      else
        let fit := irfft tmp
        let r2v := 1 - (1 - r2Score corr fit) * ((corr.length : ℚ) - 1) /
          ((corr.length : ℚ) - (tmp.length : ℚ) - 1)
        if r2v ≥ r2Threshold then
          ⟨r2v, fit, some (round2 ((N : ℚ) / (f : ℚ))), si⟩
        else ⟨r2v, fit, none, si⟩

/-- Modelled from the spec: the comparison key of the ranking claimed in
section 3 and claim C3 — descending coefficient magnitude with ties
broken by ascending original index. -/
def rankingClaimRel (v : List ℚ) (i j : ℕ) : Prop :=
  v.getD j 0 < v.getD i 0 ∨ (v.getD i 0 = v.getD j 0 ∧ i ≤ j)

instance rankingClaimRelDecidable (v : List ℚ) : DecidableRel (rankingClaimRel v) :=
  fun _ _ => inferInstanceAs (Decidable (_ ∨ _ ∧ _))

/-- Modelled from the spec: the harmonic index ranking claimed in
section 3 and claim C3, "a permutation of spectrum indices sorted by
descending coefficient magnitude; ties broken by original index order
(stable sort on magnitudes, descending)", i.e. indices stably sorted by
the key (descending value, ascending index), for comparison with
`sortedIdx`. -/
def rankingClaim (v : List ℚ) : List ℕ :=
  List.insertionSort (rankingClaimRel v) (List.range v.length)

/-- Concrete coefficient-magnitude list (spectrum length 13, matching
`NT = 25`) whose ranking begins `[2, 4, 7, …]`: the surviving non-zero
harmonic set is `[2, 4]`, so the scalar and gridded paths evaluate the
chi-squared test at different bins. -/
def cAbsC1 : List ℚ := [1, 13, 100, 12, 90, 11, 10, 80, 9, 8, 7, 6, 5]

/-- Concrete coefficient-magnitude list whose ranking begins
`[1, 4, 2, 7, …]`: the gcd-derived fundamental is 4 but the first
non-zero survivor is 1. -/
def cAbsC2 : List ℚ := [1, 100, 80, 12, 90, 11, 10, 70, 9, 8, 7, 6, 5]

/-- Concrete coefficient-magnitude list with an exact tie between the
coefficients at indices 1 and 2. -/
def cAbsC3 : List ℚ := [24, 18, 18, 16, 14, 12, 10, 8, 6, 4, 2, 1, 0]

/-- A constant correlation sequence of length `NT = 25`, well above the
correlation tolerance. -/
def corrC2 : List ℚ := List.replicate 25 1

/-- A length-25 correlation sequence with non-zero variance, used to
instantiate the decision-step theorems. -/
def corrC7 : List ℚ := 2 :: List.replicate 24 0

/-- A length-25 input with a quadratic trend, on which the two candidate
lag-1 autocorrelation formulas disagree. -/
def dataC4 : List ℚ := (List.range 25).map (fun t => ((t * t : ℕ) : ℚ))

theorem isNonDecreasing_iff {l : List ℕ} :
    isNonDecreasing l = true ↔ List.Chain' (· ≤ ·) l := by
  induction l with
  | nil => simp [isNonDecreasing]
  | cons a t ih =>
    cases t with
    | nil => simp [isNonDecreasing]
    | cons b t2 =>
      rw [isNonDecreasing, List.chain'_cons]
      simp only [Bool.and_eq_true, decide_eq_true_eq]
      exact and_congr Iff.rfl ih

theorem keepIncreasingAux_congr :
    ∀ (f1 f2 : ℕ) (l : List ℕ), l.length ≤ f1 → l.length ≤ f2 →
      keepIncreasingAux f1 l = keepIncreasingAux f2 l := by
  intro f1
  induction f1 with
  | zero =>
    intro f2 l h1 _
    have : l = [] := List.eq_nil_of_length_eq_zero (Nat.le_zero.mp h1)
    subst this
    cases f2 <;> rfl
  | succ n ih =>
    intro f2 l h1 h2
    cases l with
    | nil => cases f2 <;> rfl
    | cons a t =>
      cases f2 with
      | zero => simp at h2
      | succ m =>
        rw [keepIncreasingAux, keepIncreasingAux]
        split_ifs
        · rfl
        · apply ih
          · rw [List.length_dropLast]; simp at h1 ⊢; omega
          · rw [List.length_dropLast]; simp at h2 ⊢; omega

theorem keepIncreasing_eq (l : List ℕ) :
    keepIncreasing l = if List.Chain' (· ≤ ·) (nonzeros l) then l
      else keepIncreasing l.dropLast := by
  cases l with
  | nil => simp [keepIncreasing, keepIncreasingAux, nonzeros]
  | cons a t =>
    show keepIncreasingAux (t.length + 1) (a :: t) = _
    rw [keepIncreasingAux]
    by_cases h : List.Chain' (· ≤ ·) (nonzeros (a :: t))
    · rw [if_pos (isNonDecreasing_iff.mpr h), if_pos h]
    · rw [if_neg (fun hb => h (isNonDecreasing_iff.mp hb)), if_neg h]
      exact keepIncreasingAux_congr t.length (a :: t).dropLast.length _
        (by rw [List.length_dropLast]; simp) (le_refl _)

theorem keepIncreasing_rec (motive : List ℕ → Prop)
    (h1 : ∀ l, List.Chain' (· ≤ ·) (nonzeros l) → motive l)
    (h2 : ∀ l, ¬ List.Chain' (· ≤ ·) (nonzeros l) → motive l.dropLast → motive l) :
    ∀ l, motive l := by
  have key : ∀ (n : ℕ) (l : List ℕ), l.length ≤ n → motive l := by
    intro n
    induction n with
    | zero =>
      intro l hl
      have : l = [] := List.eq_nil_of_length_eq_zero (Nat.le_zero.mp hl)
      subst this
      exact h1 [] (by simp [nonzeros])
    | succ n ih =>
      intro l hl
      by_cases hc : List.Chain' (· ≤ ·) (nonzeros l)
      · exact h1 l hc
      · refine h2 l hc (ih _ ?_)
        rw [List.length_dropLast]
        cases l with
        | nil => simp
        | cons a t => simp at hl ⊢; omega
  exact fun l => key l.length l (le_refl _)

theorem keepIncreasing_eq_of_chain {l : List ℕ}
    (h : List.Chain' (· ≤ ·) (nonzeros l)) : keepIncreasing l = l := by
  rw [keepIncreasing_eq, if_pos h]

theorem keepIncreasing_chain (l : List ℕ) :
    List.Chain' (· ≤ ·) (nonzeros (keepIncreasing l)) := by
  induction l using keepIncreasing_rec with
  | h1 l h => rwa [keepIncreasing_eq_of_chain h]
  | h2 l h ih => rw [keepIncreasing_eq, if_neg h]; exact ih

theorem keepIncreasing_prefix_self (l : List ℕ) : keepIncreasing l <+: l := by
  induction l using keepIncreasing_rec with
  | h1 l h => rw [keepIncreasing_eq_of_chain h]
  | h2 l h ih =>
    rw [keepIncreasing_eq, if_neg h]
    have hd : l.dropLast <+: l := List.dropLast_prefix l
    exact ih.trans hd

theorem keepIncreasing_head {l : List ℕ} (h : l ≠ []) :
    keepIncreasing l ≠ [] ∧ (keepIncreasing l).headD 0 = l.headD 0 := by
  induction l using keepIncreasing_rec with
  | h1 l hc => rw [keepIncreasing_eq_of_chain hc]; exact ⟨h, rfl⟩
  | h2 l hc ih =>
    rw [keepIncreasing_eq, if_neg hc]
    cases l with
    | nil => exact absurd rfl h
    | cons a t =>
      cases t with
      | nil =>
        exfalso; apply hc
        by_cases a0 : a = 0 <;> simp [nonzeros, a0]
      | cons b t2 =>
        have hd : (a :: b :: t2).dropLast = a :: (b :: t2).dropLast := rfl
        rw [hd] at ih ⊢
        exact ih (by simp)

theorem prefix_keepIncreasing {P l : List ℕ} (hp : P <+: l)
    (hc : List.Chain' (· ≤ ·) (nonzeros P)) : P <+: keepIncreasing l := by
  induction l using keepIncreasing_rec with
  | h1 l h => rwa [keepIncreasing_eq_of_chain h]
  | h2 l h ih =>
    rw [keepIncreasing_eq, if_neg h]
    apply ih
    have hne : P ≠ l := by rintro rfl; exact h hc
    have hlen : P.length < l.length :=
      lt_of_le_of_ne hp.length_le (fun he => hne (hp.eq_of_length he))
    rw [List.prefix_iff_eq_take] at hp ⊢
    rw [List.dropLast_eq_take, List.take_take, min_eq_left (by omega)]
    exact hp

theorem prefix_takeWhile {P l : List ℕ} {p : ℕ → Bool} (hp : P <+: l)
    (hall : ∀ x ∈ P, p x = true) : P <+: l.takeWhile p := by
  induction P generalizing l with
  | nil => exact List.nil_prefix
  | cons a P ih =>
    obtain ⟨t, rfl⟩ := hp
    have ha : p a = true := hall a (by simp)
    rw [List.cons_append, List.takeWhile_cons, ha]
    simp only [if_true]
    rw [List.cons_prefix_cons]
    exact ⟨rfl, ih (List.prefix_append P t) (fun x hx => hall x (by simp [hx]))⟩

theorem sortedIdx_perm (v : List ℚ) :
    List.Perm (sortedIdx v) (List.range v.length) :=
  (List.reverse_perm (argsortAsc v)).trans (List.perm_insertionSort _ _)

theorem length_nonzeros_range (L : ℕ) :
    (nonzeros (List.range L)).length = L - 1 := by
  induction L with
  | zero => rfl
  | succ n ih =>
    rw [List.range_succ]
    unfold nonzeros at *
    rw [List.filter_append, List.length_append, ih]
    cases n with
    | zero => simp
    | succ m => simp

theorem length_nonzeros_sortedIdx (v : List ℚ) :
    (nonzeros (sortedIdx v)).length = v.length - 1 := by
  have hp : List.Perm (nonzeros (sortedIdx v)) (nonzeros (List.range v.length)) :=
    (sortedIdx_perm v).filter _
  rw [hp.length_eq, length_nonzeros_range]

theorem mem_sortedIdx_lt {v : List ℚ} {x : ℕ} (hx : x ∈ sortedIdx v) :
    x < v.length := by
  have := ((sortedIdx_perm v).mem_iff).mp hx
  exact List.mem_range.mp this

theorem survivors_subset {cAbs : List ℚ} {x : ℕ} (hx : x ∈ survivors cAbs) :
    x ∈ sortedIdx cAbs := by
  have h1 := keepIncreasing_prefix_self
    (harmonicPrefix (fundamentalOf (sortedIdx cAbs)) (sortedIdx cAbs))
  have h2 : (sortedIdx cAbs).takeWhile
      (acceptHarm (fundamentalOf (sortedIdx cAbs))) <+: sortedIdx cAbs :=
    List.takeWhile_prefix _
  exact h2.sublist.subset (h1.sublist.subset hx)

theorem mem_nonzeros {l : List ℕ} {x : ℕ} :
    x ∈ nonzeros l ↔ x ∈ l ∧ x ≠ 0 := by
  simp [nonzeros]

theorem nonzeros_ne_zero {l : List ℕ} {x : ℕ} (hx : x ∈ nonzeros l) : x ≠ 0 :=
  (mem_nonzeros.mp hx).2

theorem acceptHarm_zero (g : ℕ) : acceptHarm g 0 = true := by
  simp [acceptHarm]

theorem acceptHarm_first {si : List ℕ} (h2 : 2 ≤ (nonzeros si).length) :
    acceptHarm (fundamentalOf si) ((nonzeros si).getD 0 0) = true := by
  rcases hnz : nonzeros si with _ | ⟨i0, _ | ⟨i1, rest⟩⟩
  · rw [hnz] at h2; simp at h2
  · rw [hnz] at h2; simp at h2
  · have hi0 : i0 ≠ 0 := nonzeros_ne_zero (by rw [hnz]; simp)
    have hi1 : i1 ≠ 0 := nonzeros_ne_zero (by rw [hnz]; simp)
    unfold fundamentalOf
    rw [hnz]
    simp only [List.getD_cons_zero, List.getD_cons_succ]
    split_ifs with ha hb
    · simp [acceptHarm, Nat.mod_self]
    · have : i0 = 1 := by omega
      simp [acceptHarm, this, Nat.mod_one]
    · have : Nat.gcd i0 i1 ∣ i0 := Nat.gcd_dvd_left i0 i1
      simp [acceptHarm, Nat.mod_eq_zero_of_dvd this]

theorem fundamentalOf_ne_zero {si : List ℕ} (h2 : 2 ≤ (nonzeros si).length) :
    fundamentalOf si ≠ 0 := by
  rcases hnz : nonzeros si with _ | ⟨i0, _ | ⟨i1, rest⟩⟩
  · rw [hnz] at h2; simp at h2
  · rw [hnz] at h2; simp at h2
  · have hi0 : i0 ≠ 0 := nonzeros_ne_zero (by rw [hnz]; simp)
    have hi1 : i1 ≠ 0 := nonzeros_ne_zero (by rw [hnz]; simp)
    unfold fundamentalOf
    rw [hnz]
    simp only [List.getD_cons_zero, List.getD_cons_succ]
    split_ifs with ha hb
    · exact hi0
    · exact hi1
    · simp [Nat.gcd_eq_zero_iff, hi0, hi1]

theorem exists_first_nonzero {si : List ℕ} (h : nonzeros si ≠ []) :
    ∃ zs rest, si = zs ++ (nonzeros si).getD 0 0 :: rest ∧
      (∀ x ∈ zs, x = 0) ∧ (nonzeros si).getD 0 0 ≠ 0 := by
  induction si with
  | nil => simp [nonzeros] at h
  | cons a t ih =>
    by_cases a0 : a = 0
    · subst a0
      have hnz : nonzeros (0 :: t) = nonzeros t := by simp [nonzeros]
      rw [hnz] at h ⊢
      obtain ⟨zs, rest, he, hz, hne⟩ := ih h
      refine ⟨0 :: zs, rest, ?_, ?_, hne⟩
      · rw [List.cons_append, ← he]
      · intro x hx
        rcases List.mem_cons.mp hx with h1 | h1
        · exact h1
        · exact hz x h1
    · have hnz : nonzeros (a :: t) = a :: nonzeros t := by
        simp [nonzeros, List.filter_cons, a0]
      rw [hnz]
      exact ⟨[], t, by simp, by simp, by simpa using a0⟩

theorem first_nonzero_mem_survivors {cAbs : List ℚ}
    (h2 : 2 ≤ (nonzeros (sortedIdx cAbs)).length) :
    ∃ t, nonzeros (survivors cAbs) =
      (nonzeros (sortedIdx cAbs)).getD 0 0 :: t := by
  set si := sortedIdx cAbs with hsi
  have hne : nonzeros si ≠ [] := by
    intro h
    rw [h] at h2
    simp at h2
  obtain ⟨zs, rest, he, hz, hi0⟩ := exists_first_nonzero hne
  set i0 := (nonzeros si).getD 0 0 with hi0def
  have hpfx : zs ++ [i0] <+: si := ⟨rest, by rw [he]; simp⟩
  have hall : ∀ x ∈ zs ++ [i0], acceptHarm (fundamentalOf si) x = true := by
    intro x hx
    rcases List.mem_append.mp hx with h1 | h1
    · rw [hz x h1]; exact acceptHarm_zero _
    · rw [List.mem_singleton.mp h1]
      exact acceptHarm_first h2
  have hchain : List.Chain' (· ≤ ·) (nonzeros (zs ++ [i0])) := by
    have : nonzeros (zs ++ [i0]) = [i0] := by
      unfold nonzeros
      rw [List.filter_append]
      have h1 : zs.filter (· ≠ 0) = [] := by
        rw [List.filter_eq_nil_iff]
        intro x hx
        simp [hz x hx]
      rw [h1]
      simp [hi0]
    rw [this]
    simp
  have hps : zs ++ [i0] <+: survivors cAbs := by
    unfold survivors
    exact prefix_keepIncreasing (prefix_takeWhile hpfx hall) hchain
  obtain ⟨t2, ht2⟩ := hps
  refine ⟨nonzeros t2, ?_⟩
  rw [← ht2]
  unfold nonzeros
  rw [List.filter_append, List.filter_append]
  have h1 : zs.filter (· ≠ 0) = [] := by
    rw [List.filter_eq_nil_iff]
    intro x hx
    simp [hz x hx]
  rw [h1]
  simp [hi0]

theorem candidate_eq_first_nonzero {cAbs : List ℚ}
    (h2 : 2 ≤ (nonzeros (sortedIdx cAbs)).length) :
    candidate cAbs = (nonzeros (sortedIdx cAbs)).getD 0 0 := by
  obtain ⟨t, ht⟩ := first_nonzero_mem_survivors h2
  unfold candidate
  rw [ht]
  rfl

/-- Claim C2, amended.  For every input that reaches the red-noise
significance test, the candidate fundamental index (first non-zero member
of the surviving harmonic set, the bin tested and the divisor of `N`)
equals the GCD-derived fundamental of the harmonic-group selection step
PROVIDED the top-ranked non-zero index is not 1; when the top-ranked
non-zero index is 1, the candidate is 1 while the fundamental is the
second-ranked non-zero index (see `C2_counterexample`).  Reaching the
test is the requirement that the fundamental survives the filtering
(`hsurv`); the spectrum length hypothesis matches any real input
(`⌊N/2⌋+1 = 13` bins at `NT = 25`, and any length at least 3 works). -/
theorem C2_candidate_eq_fundamental {cAbs : List ℚ}
    (hlen : 3 ≤ cAbs.length)
    (hsurv : fundamentalOf (sortedIdx cAbs) ∈ survivors cAbs)
    (htop : (nonzeros (sortedIdx cAbs)).getD 0 0 ≠ 1) :
    candidate cAbs = fundamentalOf (sortedIdx cAbs) := by
  have h2 : 2 ≤ (nonzeros (sortedIdx cAbs)).length := by
    rw [length_nonzeros_sortedIdx]; omega
  have hc := candidate_eq_first_nonzero h2
  obtain ⟨t, ht⟩ := first_nonzero_mem_survivors h2
  have hchain : List.Chain' (· ≤ ·) (nonzeros (survivors cAbs)) := by
    unfold survivors
    exact keepIncreasing_chain _
  rcases hnz : nonzeros (sortedIdx cAbs) with _ | ⟨i0, _ | ⟨i1, rest⟩⟩
  · rw [hnz] at h2; simp at h2
  · rw [hnz] at h2; simp at h2
  · rw [hnz] at hc ht htop
    simp only [List.getD_cons_zero] at hc ht htop
    have hi0 : i0 ≠ 0 := nonzeros_ne_zero (by rw [hnz]; simp)
    have hi1 : i1 ≠ 0 := nonzeros_ne_zero (by rw [hnz]; simp)
    have hfund : fundamentalOf (sortedIdx cAbs) =
        (if Nat.gcd i0 i1 = 1 ∧ 1 < i0 then i0
         else if Nat.gcd i0 i1 = 1 then i1
         else Nat.gcd i0 i1) := by
      simp only [fundamentalOf, hnz, List.getD_cons_zero, List.getD_cons_succ]
    rw [hfund] at hsurv ⊢
    split_ifs at hsurv ⊢ with ha hb
    · exact hc
    · exact absurd (by omega : i0 = 1) htop
    · -- the gcd is a non-trivial common divisor; survival forces it to be i0
      have hgne : Nat.gcd i0 i1 ≠ 0 := by
        simp [Nat.gcd_eq_zero_iff, hi0]
      have hgmem : Nat.gcd i0 i1 ∈ nonzeros (survivors cAbs) :=
        mem_nonzeros.mpr ⟨hsurv, hgne⟩
      rw [ht] at hgmem hchain
      have hle : i0 ≤ Nat.gcd i0 i1 := by
        rcases List.mem_cons.mp hgmem with h1 | h1
        · omega
        · have hp : (i0 :: t).Pairwise (· ≤ ·) :=
            List.chain'_iff_pairwise.mp hchain
          exact (List.pairwise_cons.mp hp).1 _ h1
      have hge : Nat.gcd i0 i1 ≤ i0 :=
        Nat.le_of_dvd (Nat.pos_of_ne_zero hi0) (Nat.gcd_dvd_left i0 i1)
      rw [hc]
      omega

set_option maxRecDepth 100000 in
/-- Claim C2, counterexample.  A concrete spectrum whose ranking begins
`[1, 4, 2, 7, …]`: the GCD-derived fundamental is 4 and survives the
filtering (so the red-noise test is reached), yet the candidate index —
the one at which the chi-squared test is evaluated and by which `N = 25`
is divided — is 1, not 4: the full pipeline accepts exactly when the
abstracted test answers true at bin 1, not at bin 4. -/
theorem C2_counterexample :
    (¬ ∀ x ∈ corrC2, ratAbs x < EPS_CORR) ∧
    ¬ (cAbsC2.drop 1).sum < CONST_TOL ∧
    fundamentalOf (sortedIdx cAbsC2) ∈ survivors cAbsC2 ∧
    fundamentalOf (sortedIdx cAbsC2) = 4 ∧
    candidate cAbsC2 = 1 ∧
    candidate cAbsC2 ≠ fundamentalOf (sortedIdx cAbsC2) ∧
    (determineDominantReturnPeriod 25 EPS_CORR R2_THRESHOLD corrC2 cAbsC2
      (fun k => k == 1) (fun _ => corrC2)).period = some 25 ∧
    (determineDominantReturnPeriod 25 EPS_CORR R2_THRESHOLD corrC2 cAbsC2
      (fun k => k == 4) (fun _ => corrC2)).period = none := by
  decide

/-- Witness for `C2_candidate_eq_fundamental` at the concrete spectrum
`cAbsC1`, whose top-ranked non-zero index is 2. -/
theorem C2_witness :
    (3 ≤ cAbsC1.length ∧
      fundamentalOf (sortedIdx cAbsC1) ∈ survivors cAbsC1 ∧
      (nonzeros (sortedIdx cAbsC1)).getD 0 0 ≠ 1) ∧
    candidate cAbsC1 = fundamentalOf (sortedIdx cAbsC1) :=
  ⟨⟨by decide, by decide, by decide⟩,
    C2_candidate_eq_fundamental (by decide) (by decide) (by decide)⟩

theorem takeWhile_head {p : ℕ → Bool} {l : List ℕ} (hn : l ≠ [])
    (hp : p (l.headD 0) = true) :
    l.takeWhile p ≠ [] ∧ (l.takeWhile p).headD 0 = l.headD 0 := by
  cases l with
  | nil => exact absurd rfl hn
  | cons a t =>
    simp only [List.headD_cons] at hp ⊢
    rw [List.takeWhile_cons, hp]
    simp

/-- Claim C9.  For every correlation input that reaches the harmonic
search (neither the below-tolerance nor the constant-signal early exit
taken, hypotheses `h1` and `h2`), the surviving harmonic set is non-empty
and starts with the top-ranked spectrum index; the top-ranked index
always satisfies the acceptance condition (it is 0, a multiple of the
fundamental, or a divisor of it), and the drop-last monotonicity loop
stops before emptying the list. -/
theorem C9_survivors_nonempty_head (eps : ℚ) (corr cAbs : List ℚ)
    (h1 : ¬ ∀ x ∈ corr, ratAbs x < eps)
    (h2 : ¬ (cAbs.drop 1).sum < CONST_TOL)
    (hlen : 3 ≤ cAbs.length) :
    survivors cAbs ≠ [] ∧
    (survivors cAbs).headD 0 = (sortedIdx cAbs).headD 0 ∧
    acceptHarm (fundamentalOf (sortedIdx cAbs)) ((sortedIdx cAbs).headD 0) = true := by
  have hlsi : (sortedIdx cAbs).length = cAbs.length :=
    (sortedIdx_perm cAbs).length_eq.trans (List.length_range _)
  have hsne : sortedIdx cAbs ≠ [] := by
    intro h
    rw [h] at hlsi
    simp at hlsi
    omega
  have hnz2 : 2 ≤ (nonzeros (sortedIdx cAbs)).length := by
    rw [length_nonzeros_sortedIdx]
    omega
  have hacc : acceptHarm (fundamentalOf (sortedIdx cAbs))
      ((sortedIdx cAbs).headD 0) = true := by
    by_cases h0 : (sortedIdx cAbs).headD 0 = 0
    · rw [h0]; exact acceptHarm_zero _
    · cases hsi : sortedIdx cAbs with
      | nil => exact absurd hsi hsne
      | cons a t =>
        rw [hsi] at h0
        simp only [List.headD_cons] at h0 ⊢
        have hnza : nonzeros (a :: t) = a :: nonzeros t := by
          simp [nonzeros, List.filter_cons, h0]
        have := @acceptHarm_first (a :: t) (by rw [hsi] at hnz2; exact hnz2)
        rw [hnza] at this
        simpa using this
  refine ⟨?_, ?_, hacc⟩ <;>
  · have htw := @takeWhile_head (acceptHarm (fundamentalOf (sortedIdx cAbs)))
      (sortedIdx cAbs) hsne hacc
    have hki := @keepIncreasing_head
      (harmonicPrefix (fundamentalOf (sortedIdx cAbs)) (sortedIdx cAbs)) htw.1
    unfold survivors
    first
      | exact hki.1
      | exact hki.2.trans htw.2

/-- Witness for `C9_survivors_nonempty_head` at the concrete inputs
`corrC2` and `cAbsC1`. -/
theorem C9_witness :
    ((¬ ∀ x ∈ corrC2, ratAbs x < EPS_CORR) ∧
      (¬ (cAbsC1.drop 1).sum < CONST_TOL) ∧ 3 ≤ cAbsC1.length) ∧
    (survivors cAbsC1 ≠ [] ∧
      (survivors cAbsC1).headD 0 = (sortedIdx cAbsC1).headD 0 ∧
      acceptHarm (fundamentalOf (sortedIdx cAbsC1)) ((sortedIdx cAbsC1).headD 0) = true) :=
  ⟨⟨by decide, by decide, by decide⟩,
    C9_survivors_nonempty_head EPS_CORR corrC2 cAbsC1
      (by decide) (by decide) (by decide)⟩

/-- Claim C10.  For every input to the scalar pipeline at `N = 25` (any
tolerances, any abstracted significance test and inverse transform, and
a spectrum of the real length `⌊25/2⌋ + 1 = 13`), a returned dominant
period is either the reserved constant marker 1 or equals
`round2 (25 / f)` for a frequency index `f` between 1 and 12 inclusive,
in which case it is at least 2 — so the constant marker never coincides
with a genuinely detected dominant period. -/
theorem C10_period_bounds (eps thr : ℚ) (corr cAbs : List ℚ)
    (signif : ℕ → Bool) (irfft : List ℕ → List ℚ) (p : ℚ)
    (hlen : cAbs.length = 13)
    (hp : (determineDominantReturnPeriod 25 eps thr corr cAbs signif irfft).period
      = some p) :
    p = 1 ∨ ∃ f : ℕ, 1 ≤ f ∧ f ≤ 12 ∧ p = round2 ((25 : ℚ) / (f : ℚ)) ∧ 2 ≤ p := by
  have hnz2 : 2 ≤ (nonzeros (sortedIdx cAbs)).length := by
    rw [length_nonzeros_sortedIdx, hlen]
    omega
  have hbound : ∀ f ∈ Finset.Icc (1 : ℕ) 12, 2 ≤ round2 ((25 : ℚ) / (f : ℚ)) := by
    decide
  simp only [determineDominantReturnPeriod] at hp
  split_ifs at hp with hc1 hc2 hc3 hc4 hc5
  · -- the constant-signal branch: the period is the reserved marker 1
    left
    simp at hp
    exact hp.symm
  · -- the accepting branch: the period is round2 (25 / candidate)
    right
    have hpeq : p = round2 ((25 : ℚ) / (candidate cAbs : ℚ)) := by
      simp at hp
      exact hp.symm
    have hgs : fundamentalOf (sortedIdx cAbs) ∈ survivors cAbs := hc3
    have hgne : fundamentalOf (sortedIdx cAbs) ≠ 0 := fundamentalOf_ne_zero hnz2
    have hmemnz : fundamentalOf (sortedIdx cAbs) ∈ nonzeros (survivors cAbs) :=
      mem_nonzeros.mpr ⟨hgs, hgne⟩
    have hnzne : nonzeros (survivors cAbs) ≠ [] := by
      intro h
      rw [h] at hmemnz
      simp at hmemnz
    have hcand : candidate cAbs ∈ nonzeros (survivors cAbs) := by
      unfold candidate
      cases hh : nonzeros (survivors cAbs) with
      | nil => exact absurd hh hnzne
      | cons a t => simp
    have hcne : candidate cAbs ≠ 0 := nonzeros_ne_zero hcand
    have hcsi : candidate cAbs ∈ sortedIdx cAbs :=
      survivors_subset (mem_nonzeros.mp hcand).1
    have hclt : candidate cAbs < 13 := by
      have := mem_sortedIdx_lt hcsi
      rwa [hlen] at this
    refine ⟨candidate cAbs, by omega, by omega, hpeq, ?_⟩
    rw [hpeq]
    exact hbound _ (Finset.mem_Icc.mpr ⟨by omega, by omega⟩)

set_option maxRecDepth 100000 in
/-- Witness for `C10_period_bounds`: with the always-true significance
stub and the identity-like fit the pipeline on `cAbsC1` returns the
period `round2 (25/2) = 12.5`. -/
theorem C10_witness :
    (cAbsC1.length = 13 ∧
      (determineDominantReturnPeriod 25 EPS_CORR R2_THRESHOLD corrC2 cAbsC1
        (fun _ => true) (fun _ => corrC2)).period = some (25/2 : ℚ)) ∧
    ((25/2 : ℚ) = 1 ∨ ∃ f : ℕ, 1 ≤ f ∧ f ≤ 12 ∧
      (25/2 : ℚ) = round2 ((25 : ℚ) / (f : ℚ)) ∧ 2 ≤ (25/2 : ℚ)) :=
  ⟨⟨by decide, by decide⟩,
    C10_period_bounds EPS_CORR R2_THRESHOLD corrC2 cAbsC1
      (fun _ => true) (fun _ => corrC2) (25/2) (by decide) (by decide)⟩

/-- Claim C3, amended.  For every input, the harmonic index ranking is a
permutation of the spectrum indices ordered by descending coefficient
magnitude, but ties are broken by DESCENDING original index, not
ascending: the ranking is the flip of an ascending argsort (main.py lines
201 and 286), which reverses the encounter order of equal-magnitude
coefficients.  (Under numpy's default unstable sort kinds the tie order
is not even specified; the embedding models the stable kind.) -/
theorem C3_ranking_descending (v : List ℚ) :
    List.Perm (sortedIdx v) (List.range v.length) ∧
    (sortedIdx v).Pairwise (fun i j =>
      v.getD j 0 < v.getD i 0 ∨ (v.getD i 0 = v.getD j 0 ∧ j < i)) := by
  refine ⟨sortedIdx_perm v, ?_⟩
  have hs : (argsortAsc v).Pairwise (argsortRel v) :=
    List.sorted_insertionSort (argsortRel v) (List.range v.length)
  have hrev : (sortedIdx v).Pairwise (fun i j => argsortRel v j i) := by
    unfold sortedIdx
    exact List.pairwise_reverse.mpr hs
  have hnd : (sortedIdx v).Nodup :=
    (sortedIdx_perm v).symm.nodup (List.nodup_range v.length)
  have hcomb := hrev.and hnd
  refine hcomb.imp ?_
  intro i j hij
  obtain ⟨hrel, hne⟩ := hij
  rcases hrel with h | ⟨heq, hle⟩
  · exact Or.inl h
  · exact Or.inr ⟨heq.symm, lt_of_le_of_ne hle (fun he => hne he.symm)⟩

/-- Claim C3, counterexample.  A spectrum with an exact tie between the
coefficients at indices 1 and 2: the code's ranking lists index 2 before
index 1 (descending-index tie-breaking), while the claimed ranking — a
stable descending sort with ties by ascending original index — lists 1
before 2. -/
theorem C3_counterexample :
    sortedIdx cAbsC3 = [0, 2, 1, 3, 4, 5, 6, 7, 8, 9, 10, 11, 12] ∧
    rankingClaim cAbsC3 = [0, 1, 2, 3, 4, 5, 6, 7, 8, 9, 10, 11, 12] ∧
    sortedIdx cAbsC3 ≠ rankingClaim cAbsC3 := by
  decide

/-- Claim C5.  Whenever the below-tolerance exit is not taken and the
Fourier energy outside the DC bin is below the near-zero tolerance, the
scalar pipeline returns r² = 1.0, the fit equal to the input, and the
reserved constant marker `some 1` — which differs from the period-absent
value `none` and, at `NT = 25`, from every numeric dominant period the
accepting branch can produce (`round2 (25/f)` for `f` in 1..12, all at
least 2.08, hence never 1). -/
theorem C5_constant_marker (N : ℕ) (eps thr : ℚ) (corr cAbs : List ℚ)
    (signif : ℕ → Bool) (irfft : List ℕ → List ℚ)
    (h1 : ¬ ∀ x ∈ corr, ratAbs x < eps)
    (h2 : (cAbs.drop 1).sum < CONST_TOL) :
    (determineDominantReturnPeriod N eps thr corr cAbs signif irfft).r2 = 1 ∧
    (determineDominantReturnPeriod N eps thr corr cAbs signif irfft).period = some 1 ∧
    (determineDominantReturnPeriod N eps thr corr cAbs signif irfft).fit = corr ∧
    some (1 : ℚ) ≠ (none : Option ℚ) ∧
    ∀ f ∈ Finset.Icc (1 : ℕ) 12, round2 ((25 : ℚ) / (f : ℚ)) ≠ 1 := by
  have hr : determineDominantReturnPeriod N eps thr corr cAbs signif irfft =
      ⟨1, corr, some 1, sortedIdx cAbs⟩ := by
    simp only [determineDominantReturnPeriod]
    rw [if_neg h1, if_pos h2]
  rw [hr]
  exact ⟨rfl, rfl, rfl, by simp, by decide⟩

/-- Witness for `C5_constant_marker` at a constant-type spectrum with all
energy in the DC bin. -/
theorem C5_witness :
    ((¬ ∀ x ∈ corrC2, ratAbs x < EPS_CORR) ∧
      (([(5 : ℚ), 0, 0].drop 1).sum < CONST_TOL)) ∧
    (determineDominantReturnPeriod 25 EPS_CORR R2_THRESHOLD corrC2 [5, 0, 0]
      (fun _ => true) (fun _ => corrC2)).r2 = 1 ∧
    (determineDominantReturnPeriod 25 EPS_CORR R2_THRESHOLD corrC2 [5, 0, 0]
      (fun _ => true) (fun _ => corrC2)).period = some 1 ∧
    (determineDominantReturnPeriod 25 EPS_CORR R2_THRESHOLD corrC2 [5, 0, 0]
      (fun _ => true) (fun _ => corrC2)).fit = corrC2 ∧
    some (1 : ℚ) ≠ (none : Option ℚ) ∧
    ∀ f ∈ Finset.Icc (1 : ℕ) 12, round2 ((25 : ℚ) / (f : ℚ)) ≠ 1 :=
  ⟨⟨by decide, by decide⟩,
    (C5_constant_marker 25 EPS_CORR R2_THRESHOLD corrC2 [5, 0, 0]
      (fun _ => true) (fun _ => corrC2) (by decide) (by decide)).1,
    (C5_constant_marker 25 EPS_CORR R2_THRESHOLD corrC2 [5, 0, 0]
      (fun _ => true) (fun _ => corrC2) (by decide) (by decide)).2⟩

/-- Claim C8, evaluation at the failing input.  With `N = 1` and the
constant pair series `[1, 1]` (and `np.fft.rfft [1] = [1]`, supplied as
the magnitude list), the pipeline raises nothing: the time correlation
is the ordinary windowed product `[1]`, and the decision function flows
through its guards and returns the reserved constant marker `some 1`
with r² = 1 — a normal degenerate numeric result, not a precondition
failure. -/
theorem C8_no_precondition_failure (signif : ℕ → Bool) (irfft : List ℕ → List ℚ) :
    calcTimeCorr 1 [1, 1] [1, 1] = [1] ∧
    (determineDominantReturnPeriod 1 EPS_CORR R2_THRESHOLD
      (calcTimeCorr 1 [1, 1] [1, 1]) [1] signif irfft).period = some 1 ∧
    (determineDominantReturnPeriod 1 EPS_CORR R2_THRESHOLD
      (calcTimeCorr 1 [1, 1] [1, 1]) [1] signif irfft).r2 = 1 := by
  have hr : determineDominantReturnPeriod 1 EPS_CORR R2_THRESHOLD
      (calcTimeCorr 1 [1, 1] [1, 1]) [1] signif irfft =
      ⟨1, calcTimeCorr 1 [1, 1] [1, 1], some 1, sortedIdx [1]⟩ := by
    simp only [determineDominantReturnPeriod]
    rw [if_neg (by decide), if_pos (by decide)]
  rw [hr]
  exact ⟨by decide, rfl, rfl⟩

set_option maxRecDepth 100000 in
/-- Claim C1, the divergence between the scalar and gridded paths.  On a
spectrum whose surviving non-zero harmonic set is `[2, 4]` (reachable by
every cell of a uniform grid), both paths select the same fundamental
and the same surviving prefix, but the scalar path evaluates the
chi-squared red-noise test at the FIRST surviving non-zero harmonic
(bin 2, main.py line 241) while the gridded path's overwrite loop
(main.py lines 169-173) ends up comparing the values at the LAST one
(bin 4) — so a uniform grid whose per-cell test passes at bin 2 but
fails at bin 4 gets `None` from the gridded driver where the scalar
pipeline returns a numeric period. -/
theorem C1_gridded_chi2_bin_divergence :
    nonzeros (survivors cAbsC1) = [2, 4] ∧
    fundamentalOfArray (sortedIdx cAbsC1) = fundamentalOf (sortedIdx cAbsC1) ∧
    arrayPrefixSel (fundamentalOfArray (sortedIdx cAbsC1)) (sortedIdx cAbsC1) =
      harmonicPrefix (fundamentalOf (sortedIdx cAbsC1)) (sortedIdx cAbsC1) ∧
    scalarChiBin (nonzeros (survivors cAbsC1)) = 2 ∧
    arrayChiBin (nonzeros (survivors cAbsC1)) = 4 ∧
    scalarChiBin (nonzeros (survivors cAbsC1)) ≠
      arrayChiBin (nonzeros (survivors cAbsC1)) := by
  decide

theorem getD_take_lt {l : List ℚ} {n i : ℕ} (h1 : i < n) (h2 : i < l.length) :
    (l.take n).getD i 0 = l.getD i 0 := by
  rw [List.getD_eq_getElem _ _ (show i < (l.take n).length by
        rw [List.length_take]; omega),
      List.getD_eq_getElem _ _ h2]
  exact List.getElem_take _

theorem getD_drop_lt {l : List ℚ} {m i : ℕ} (h : m + i < l.length) :
    (l.drop m).getD i 0 = l.getD (m + i) 0 := by
  rw [List.getD_eq_getElem _ _ (show i < (l.drop m).length by
        rw [List.length_drop]; omega),
      List.getD_eq_getElem _ _ h]
  exact List.getElem_drop _

theorem sum_map_getD (l : List ℚ) (f : ℚ → ℚ) :
    (l.map f).sum = ∑ i in Finset.range l.length, f (l.getD i 0) := by
  induction l with
  | nil => simp
  | cons a t ih =>
    rw [List.map_cons, List.sum_cons, List.length_cons, Finset.sum_range_succ']
    simp only [List.getD_cons_succ, List.getD_cons_zero]
    rw [ih]
    ring

theorem sum_zipWith_getD (f : ℚ → ℚ → ℚ) (u w : List ℚ) :
    (List.zipWith f u w).sum =
      ∑ i in Finset.range (min u.length w.length), f (u.getD i 0) (w.getD i 0) := by
  induction u generalizing w with
  | nil => simp
  | cons a t ih =>
    cases w with
    | nil => simp
    | cons b s =>
      rw [List.zipWith_cons_cons, List.sum_cons, ih, List.length_cons,
        List.length_cons, Nat.succ_min_succ, Finset.sum_range_succ']
      simp only [List.getD_cons_succ, List.getD_cons_zero]
      ring

theorem dot_eq_sum (u w : List ℚ) :
    dot u w = ∑ i in Finset.range (min u.length w.length),
      u.getD i 0 * w.getD i 0 :=
  sum_zipWith_getD (· * ·) u w

theorem arangeQ_length (N : ℕ) : (arangeQ N).length = N := by
  unfold arangeQ
  rw [List.length_map, List.length_range]

theorem demeanDetrend_length {N : ℕ} {data : List ℚ} (h : data.length = N) :
    (demeanDetrend N data).length = N := by
  unfold demeanDetrend
  rw [List.length_map, List.length_zipWith, arangeQ_length, h, min_self]

/-- Claim C4, amended.  The lag-1 autocorrelation coefficient of the
scalar red-noise test equals
`Σ_t x[t]·x[t+1] / ((N−1)·Var(data[:-1]))` where `x` is the demeaned
linearly detrended sequence but `data` is the ORIGINAL input: the
variance in the denominator is taken over the original input's first
`N−1` samples (main.py line 104, `np.var(data[:-1])`), not over the
demeaned detrended series as the spec states. -/
theorem C4_phi_formula (N : ℕ) (data : List ℚ)
    (hlen : data.length = N) (hN : 2 ≤ N) :
    phiOf N data =
      (∑ t in Finset.range (N - 1),
        (demeanDetrend N data).getD t 0 * (demeanDetrend N data).getD (t + 1) 0) /
      (((N : ℚ) - 1) * npVar data.dropLast) := by
  simp only [phiOf]
  congr 1
  have hxlen : (demeanDetrend N data).length = N := demeanDetrend_length hlen
  rw [dot_eq_sum]
  have h1 : ((demeanDetrend N data).take (N - 1)).length = N - 1 := by
    rw [List.length_take, hxlen]; omega
  have h2 : (((demeanDetrend N data).drop 1).take (N - 1)).length = N - 1 := by
    rw [List.length_take, List.length_drop, hxlen]; omega
  rw [h1, h2, min_self]
  apply Finset.sum_congr rfl
  intro t ht
  rw [Finset.mem_range] at ht
  congr 1
  · exact getD_take_lt (by omega) (by omega)
  · rw [getD_take_lt (by omega) (show t < ((demeanDetrend N data).drop 1).length by
        rw [List.length_drop, hxlen]; omega),
      getD_drop_lt (by omega)]
    congr 1
    omega

set_option maxRecDepth 100000 in
/-- Claim C4, counterexample.  On the quadratic-trend input
`data = [0, 1, 4, …, 576]` of length `NT = 25` the code's coefficient
(variance of the original data in the denominator) and the claimed
formula (variance of the demeaned detrended series) give different
values, 2808/42535 versus 2808/2935. -/
theorem C4_counterexample :
    phiOf 25 dataC4 = 2808/42535 ∧ phiClaim 25 dataC4 = 2808/2935 ∧
    phiOf 25 dataC4 ≠ phiClaim 25 dataC4 := by
  refine ⟨by decide, by decide, by decide⟩

set_option maxRecDepth 100000 in
/-- Witness for `C4_phi_formula` at a concrete length-3 input. -/
theorem C4_witness :
    (([(0 : ℚ), 1, 4]).length = 3 ∧ 2 ≤ 3) ∧
    phiOf 3 [0, 1, 4] =
      (∑ t in Finset.range 2,
        (demeanDetrend 3 [0, 1, 4]).getD t 0 *
          (demeanDetrend 3 [0, 1, 4]).getD (t + 1) 0) /
      (((3 : ℚ) - 1) * npVar ([(0 : ℚ), 1, 4]).dropLast) :=
  ⟨⟨by decide, by decide⟩, C4_phi_formula 3 [0, 1, 4] (by decide) (by decide)⟩

/-- Claim C6.  For every pair of equal-length series of length `2N`, the
scalar time correlation returns a sequence of length `N` whose entry `k`
equals the dot product of series A's first `N` samples with series B's
`N`-sample window starting at offset `k`, divided by `N`; on the
short-circuited all-zero cases the returned zero sequence agrees with the
same formula, because the corresponding dot products vanish. -/
theorem C6_time_corr (N : ℕ) (a b : List ℚ)
    (hN : 0 < N) (ha : a.length = 2 * N) (hb : b.length = 2 * N) :
    (calcTimeCorr N a b).length = N ∧
    ∀ k, k < N → (calcTimeCorr N a b).getD k 0 =
      (∑ i in Finset.range N, a.getD i 0 * b.getD (k + i) 0) / (N : ℚ) := by
  have hbtake : b.take (2 * N) = b := by
    rw [← hb, List.take_length]
  have hazero : (∀ x ∈ a.take N, x = 0) →
      ∀ i, i < N → a.getD i 0 = 0 := by
    intro hz i hi
    have hia : i < a.length := by omega
    rw [← getD_take_lt hi hia,
      List.getD_eq_getElem _ _ (show i < (a.take N).length by
        rw [List.length_take]; omega)]
    exact hz _ (List.getElem_mem _)
  simp only [calcTimeCorr, hbtake]
  split_ifs with h1 h2
  · -- series A's first N samples are uniformly zero
    refine ⟨List.length_replicate N 0, fun k hk => ?_⟩
    rw [List.getD_eq_getElem _ _ (by simpa using hk), List.getElem_replicate]
    symm
    rw [div_eq_zero_iff]
    left
    apply Finset.sum_eq_zero
    intro i hi
    rw [Finset.mem_range] at hi
    rw [hazero h1.2 i hi, zero_mul]
  · -- series B is uniformly zero
    refine ⟨List.length_replicate N 0, fun k hk => ?_⟩
    rw [List.getD_eq_getElem _ _ (by simpa using hk), List.getElem_replicate]
    symm
    rw [div_eq_zero_iff]
    left
    apply Finset.sum_eq_zero
    intro i hi
    rw [Finset.mem_range] at hi
    have hkb : k + i < b.length := by omega
    have : b.getD (k + i) 0 = 0 := by
      rw [List.getD_eq_getElem _ _ hkb]
      exact h2.2 _ (List.getElem_mem _)
    rw [this, mul_zero]
  · -- the generic windowed dot product
    constructor
    · rw [List.length_map, List.length_range]
    · intro k hk
      rw [List.getD_eq_getElem _ _ (by
        rw [List.length_map, List.length_range]; omega)]
      rw [List.getElem_map, List.getElem_range]
      congr 1
      rw [dot_eq_sum]
      have hl1 : (a.take N).length = N := by
        rw [List.length_take]; omega
      have hl2 : ((b.drop k).take N).length = N := by
        rw [List.length_take, List.length_drop]; omega
      rw [hl1, hl2, min_self]
      apply Finset.sum_congr rfl
      intro i hi
      rw [Finset.mem_range] at hi
      congr 1
      · exact getD_take_lt hi (by omega)
      · rw [getD_take_lt hi (show i < (b.drop k).length by
            rw [List.length_drop]; omega),
          getD_drop_lt (by omega)]

/-- Witness for `C6_time_corr` at `N = 2`, `a = [1, 2, 3, 4]`,
`b = [5, 6, 7, 8]`, with the entry formula instantiated at both
offsets. -/
theorem C6_witness :
    (0 < 2 ∧ ([(1 : ℚ), 2, 3, 4]).length = 2 * 2 ∧
      ([(5 : ℚ), 6, 7, 8]).length = 2 * 2) ∧
    (calcTimeCorr 2 [1, 2, 3, 4] [5, 6, 7, 8]).length = 2 ∧
    (calcTimeCorr 2 [1, 2, 3, 4] [5, 6, 7, 8]).getD 0 0 =
      (∑ i in Finset.range 2,
        ([(1 : ℚ), 2, 3, 4]).getD i 0 * ([(5 : ℚ), 6, 7, 8]).getD (0 + i) 0) / (2 : ℚ) ∧
    (calcTimeCorr 2 [1, 2, 3, 4] [5, 6, 7, 8]).getD 1 0 =
      (∑ i in Finset.range 2,
        ([(1 : ℚ), 2, 3, 4]).getD i 0 * ([(5 : ℚ), 6, 7, 8]).getD (1 + i) 0) / (2 : ℚ) :=
  ⟨⟨by decide, by decide, by decide⟩,
    (C6_time_corr 2 [1, 2, 3, 4] [5, 6, 7, 8] (by decide) (by decide) (by decide)).1,
    (C6_time_corr 2 [1, 2, 3, 4] [5, 6, 7, 8] (by decide) (by decide) (by decide)).2
      0 (by decide),
    (C6_time_corr 2 [1, 2, 3, 4] [5, 6, 7, 8] (by decide) (by decide) (by decide)).2
      1 (by decide)⟩

/-- Claim C7.  For every input that passes the significance test (and
the earlier guards), with a band-limited inverse-FFT fit of the input's
length, the decision step computes the degrees-of-freedom adjustment
`1 − (1 − r²)·(N−1)/(N − |harmonic set| − 1)` of the coefficient of
determination `r² = 1 − SSres/SStot` between the observed correlation
sequence and the fit; the period is absent exactly when the adjusted
value is below the acceptance threshold, and otherwise equals `N`
divided by the candidate fundamental index, rounded to 2 decimal
places. -/
theorem C7_adjusted_r2_gate (N : ℕ) (eps thr : ℚ) (corr cAbs : List ℚ)
    (signif : ℕ → Bool) (irfft : List ℕ → List ℚ)
    (hN : corr.length = N)
    (h1 : ¬ ∀ x ∈ corr, ratAbs x < eps)
    (h2 : ¬ (cAbs.drop 1).sum < CONST_TOL)
    (h3 : fundamentalOf (sortedIdx cAbs) ∈ survivors cAbs)
    (h4 : signif (candidate cAbs) = true)
    (hfit : (irfft (survivors cAbs)).length = N)
    (hden : (∑ i in Finset.range N, (corr.getD i 0 - mean corr) ^ 2) ≠ 0) :
    (determineDominantReturnPeriod N eps thr corr cAbs signif irfft).r2 =
      1 - (1 - (1 -
        (∑ i in Finset.range N,
          (corr.getD i 0 - (irfft (survivors cAbs)).getD i 0) ^ 2) /
        (∑ i in Finset.range N, (corr.getD i 0 - mean corr) ^ 2))) *
        ((N : ℚ) - 1) / ((N : ℚ) - ((survivors cAbs).length : ℚ) - 1) ∧
    ((determineDominantReturnPeriod N eps thr corr cAbs signif irfft).r2 < thr →
      (determineDominantReturnPeriod N eps thr corr cAbs signif irfft).period = none) ∧
    (thr ≤ (determineDominantReturnPeriod N eps thr corr cAbs signif irfft).r2 →
      (determineDominantReturnPeriod N eps thr corr cAbs signif irfft).period =
        some (round2 ((N : ℚ) / (candidate cAbs : ℚ)))) := by
  have hr2 : r2Score corr (irfft (survivors cAbs)) = 1 -
      (∑ i in Finset.range N,
        (corr.getD i 0 - (irfft (survivors cAbs)).getD i 0) ^ 2) /
      (∑ i in Finset.range N, (corr.getD i 0 - mean corr) ^ 2) := by
    have hnum : (List.zipWith (fun a b => (a - b) ^ 2) corr
        (irfft (survivors cAbs))).sum =
        ∑ i in Finset.range N,
          (corr.getD i 0 - (irfft (survivors cAbs)).getD i 0) ^ 2 := by
      rw [sum_zipWith_getD, hN, hfit, min_self]
    have hd : (corr.map (fun a => (a - mean corr) ^ 2)).sum =
        ∑ i in Finset.range N, (corr.getD i 0 - mean corr) ^ 2 := by
      rw [sum_map_getD, hN]
    simp only [r2Score]
    rw [hnum, hd, if_pos hden]
  have hstep : determineDominantReturnPeriod N eps thr corr cAbs signif irfft =
      (if (1 - (1 - r2Score corr (irfft (survivors cAbs))) *
            ((corr.length : ℚ) - 1) /
            ((corr.length : ℚ) - ((survivors cAbs).length : ℚ) - 1)) ≥ thr then
        ⟨1 - (1 - r2Score corr (irfft (survivors cAbs))) *
            ((corr.length : ℚ) - 1) /
            ((corr.length : ℚ) - ((survivors cAbs).length : ℚ) - 1),
          irfft (survivors cAbs),
          some (round2 ((N : ℚ) / (candidate cAbs : ℚ))), sortedIdx cAbs⟩
      else
        ⟨1 - (1 - r2Score corr (irfft (survivors cAbs))) *
            ((corr.length : ℚ) - 1) /
            ((corr.length : ℚ) - ((survivors cAbs).length : ℚ) - 1),
          irfft (survivors cAbs), none, sortedIdx cAbs⟩) := by
    simp only [determineDominantReturnPeriod]
    rw [if_neg h1, if_neg h2, if_neg (not_not.mpr h3), if_neg (not_not.mpr h4)]
  rw [hN] at hstep
  rw [hstep, hr2]
  split_ifs with hth
  · exact ⟨rfl, fun hcon => absurd hth (not_le.mpr hcon), fun _ => rfl⟩
  · exact ⟨rfl, fun _ => rfl, fun hcon => absurd hcon hth⟩

set_option maxRecDepth 400000 in
/-- Witness for `C7_adjusted_r2_gate` at `corrC7` (which has non-zero
variance), the spectrum `cAbsC1`, the always-true significance stub and
the identity-like fit. -/
theorem C7_witness :
    (corrC7.length = 25 ∧
      (¬ ∀ x ∈ corrC7, ratAbs x < EPS_CORR) ∧
      (¬ (cAbsC1.drop 1).sum < CONST_TOL) ∧
      fundamentalOf (sortedIdx cAbsC1) ∈ survivors cAbsC1 ∧
      corrC7.length = 25 ∧
      (∑ i in Finset.range 25, (corrC7.getD i 0 - mean corrC7) ^ 2) ≠ 0) ∧
    (determineDominantReturnPeriod 25 EPS_CORR R2_THRESHOLD corrC7 cAbsC1
        (fun _ => true) (fun _ => corrC7)).r2 =
      1 - (1 - (1 -
        (∑ i in Finset.range 25, (corrC7.getD i 0 - corrC7.getD i 0) ^ 2) /
        (∑ i in Finset.range 25, (corrC7.getD i 0 - mean corrC7) ^ 2))) *
        ((25 : ℚ) - 1) / ((25 : ℚ) - ((survivors cAbsC1).length : ℚ) - 1) ∧
    ((determineDominantReturnPeriod 25 EPS_CORR R2_THRESHOLD corrC7 cAbsC1
        (fun _ => true) (fun _ => corrC7)).r2 < R2_THRESHOLD →
      (determineDominantReturnPeriod 25 EPS_CORR R2_THRESHOLD corrC7 cAbsC1
        (fun _ => true) (fun _ => corrC7)).period = none) ∧
    (R2_THRESHOLD ≤ (determineDominantReturnPeriod 25 EPS_CORR R2_THRESHOLD corrC7 cAbsC1
        (fun _ => true) (fun _ => corrC7)).r2 →
      (determineDominantReturnPeriod 25 EPS_CORR R2_THRESHOLD corrC7 cAbsC1
        (fun _ => true) (fun _ => corrC7)).period =
        some (round2 ((25 : ℚ) / (candidate cAbsC1 : ℚ)))) :=
  ⟨⟨by decide, by decide, by decide, by decide, by decide, by decide⟩,
    C7_adjusted_r2_gate 25 EPS_CORR R2_THRESHOLD corrC7 cAbsC1
      (fun _ => true) (fun _ => corrC7) (by decide) (by decide) (by decide)
      (by decide) rfl (by decide) (by decide)⟩

theorem ratAbs_eq_abs (x : ℚ) : ratAbs x = |x| := by
  unfold ratAbs
  split_ifs with h
  · exact (abs_of_neg h).symm
  · exact (abs_of_nonneg (le_of_not_lt h)).symm

/-- Witness for `C3_ranking_descending` at the concrete spectrum
`cAbsC1`. -/
theorem C3_witness :
    List.Perm (sortedIdx cAbsC1) (List.range cAbsC1.length) ∧
    (sortedIdx cAbsC1).Pairwise (fun i j =>
      cAbsC1.getD j 0 < cAbsC1.getD i 0 ∨
        (cAbsC1.getD i 0 = cAbsC1.getD j 0 ∧ j < i)) :=
  C3_ranking_descending cAbsC1

/-- Witness for `C8_no_precondition_failure` with concrete stubs for the
abstracted significance test and inverse transform. -/
theorem C8_witness :
    calcTimeCorr 1 [1, 1] [1, 1] = [1] ∧
    (determineDominantReturnPeriod 1 EPS_CORR R2_THRESHOLD
      (calcTimeCorr 1 [1, 1] [1, 1]) [1] (fun _ => true) (fun _ => [])).period
      = some 1 ∧
    (determineDominantReturnPeriod 1 EPS_CORR R2_THRESHOLD
      (calcTimeCorr 1 [1, 1] [1, 1]) [1] (fun _ => true) (fun _ => [])).r2 = 1 :=
  C8_no_precondition_failure (fun _ => true) (fun _ => [])
